import Mathlib

/-!
Verification of the clickstream cleaning pipeline (`clean/clean_data.py`).

Python strings are modelled as `List Char`; a string literal `"A-B"` of the
source appears here as `"A-B".data`.  A dataframe is modelled as a list of
rows.  The two transforms of the source, `remove_page_duplicates` and
`group_by`, are embedded below together with the pieces of the pandas API
they use (`Series.apply`, `sort_values`, `groupby`, `head`, `tail`,
`Series.unique`), each modelled from its documented behaviour.
-/

namespace CleanData

/-- A Python string: a sequence of characters. -/
abbrev PyStr := List Char

/-- Models Python `s.split(c)` for a one-character separator `c`:
splitting the empty string gives one empty token, and every separator
character opens a new token. -/
def splitChar (c : Char) : PyStr → List PyStr
  | [] => [[]]
  | x :: xs =>
    match splitChar c xs with
    | [] => [[]]
    | t :: ts => if x = c then [] :: t :: ts else (x :: t) :: ts

/-- Models Python `c.join(tokens)` for a one-character separator. -/
def joinChar (c : Char) : List PyStr → PyStr
  | [] => []
  | [t] => t
  | t :: ts => t ++ c :: joinChar c ts

/-- The body of the `for page in pages[1:]` loop of `remove_duplicates`:
`last` is the token currently at the end of the accumulator
(`cleaned_pages[-1]`), and a page is kept only if it differs from it. -/
def collapseGo (last : PyStr) : List PyStr → List PyStr
  | [] => []
  | p :: ps => if p = last then collapseGo last ps else p :: collapseGo p ps

/-- A dataframe cell: either a Python string or a non-string value
(such as NaN), kept opaque. -/
inductive Value where
  | str (s : PyStr)
  | nonstr (tag : Nat)
deriving DecidableEq

/-- Whether a cell holds a string (`isinstance(journey, str)`). -/
def Value.isStr : Value → Bool
  | .str _ => true
  | .nonstr _ => false

/-- The inner `remove_duplicates` of `remove_page_duplicates`: non-strings
pass through; a string is split on the hyphen, the guard `if not pages`
returns it unchanged when the token list is empty, and otherwise the first
token is kept and each later token is kept only if it differs from the
last kept one, the result re-joined with hyphens. -/
def remove_duplicates (journey : Value) : Value :=
  match journey with
  | .nonstr t => .nonstr t
  | .str s =>
    match splitChar '-' s with
    | [] => .str s
    | p :: rest => .str (joinChar '-' (p :: collapseGo p rest))

/-- The four columns of the table (§3 of the spec / the CSV header). -/
inductive Col where
  | user_id
  | session_id
  | subscription_type
  | user_journey
deriving DecidableEq

/-- A row of the raw table: one cell per column. -/
structure Row where
  user_id : Value
  session_id : Value
  subscription_type : Value
  user_journey : Value
deriving DecidableEq

/-- Column access `row[c]`. -/
def Row.cell (r : Row) : Col → Value
  | .user_id => r.user_id
  | .session_id => r.session_id
  | .subscription_type => r.subscription_type
  | .user_journey => r.user_journey

/-- Column update `row[c] = v`. -/
def Row.setCell (r : Row) : Col → Value → Row
  | .user_id, v => { r with user_id := v }
  | .session_id, v => { r with session_id := v }
  | .subscription_type, v => { r with subscription_type := v }
  | .user_journey, v => { r with user_journey := v }

/-- The transform `remove_page_duplicates(df, target_column)`: copies the dataframe and
applies `remove_duplicates` to the target column of every row
(`df_clean[target_column].apply(remove_duplicates)`). -/
def remove_page_duplicates (df : List Row) (target_column : Col) : List Row :=
  df.map fun r => r.setCell target_column (remove_duplicates (r.cell target_column))

/-! ### The Session Grouper (`group_by`)

For `group_by` the table is typed to the §3 shape: integer user and session
identifiers and string subscription and journey fields, as in the CSV the
script reads.  `astype(str)` is the identity on the subscription strings and
decimal rendering on the session identifiers. -/

/-- A row as seen by the Grouper. -/
structure GRow where
  user_id : Int
  session_id : Int
  subscription_type : PyStr
  user_journey : PyStr
deriving DecidableEq

/-- One aggregated output row of the Grouper. -/
structure AggRow where
  user_id : Int
  session_id : PyStr
  subscription_type : PyStr
  user_journey : PyStr
deriving DecidableEq

/-- Models Python `str(n)` on an integer. -/
def intStr (n : Int) : PyStr := (toString n).data

/-- The least significant digits of a natural number, via the standard
decimal fold used to read a digit string. -/
def digitsVal (ds : PyStr) : Nat :=
  ds.foldl (fun n c => 10 * n + (c.toNat - '0'.toNat)) 0

/-- Models Python `int(s)` on a string: optional surrounding ASCII spaces,
an optional sign, then one or more ASCII digits; anything else raises
`ValueError`, modelled as `none`.  (Python additionally accepts other
unicode whitespace and digits and underscores between digits; those forms
are not needed by this pipeline and are not modelled.) -/
def pyInt (s : PyStr) : Option Int :=
  let t := ((s.dropWhile (· = ' ')).reverse.dropWhile (· = ' ')).reverse
  let sd : Int × PyStr :=
    match t with
    | '+' :: ds => (1, ds)
    | '-' :: ds => (-1, ds)
    | ds => (1, ds)
  if sd.2 ≠ [] ∧ sd.2.all Char.isDigit then some (sd.1 * (digitsVal sd.2 : Int))
  else none

/-- Models Python `s.lower()` (the strings compared against are ASCII). -/
def pyLower (s : PyStr) : PyStr := s.map Char.toLower

/-- Models `DataFrame.head(n)`: the first `n` rows for `n ≥ 0`, and all
rows but the last `|n|` for negative `n`. -/
def pdHead (n : Int) (l : List GRow) : List GRow :=
  if 0 ≤ n then l.take n.toNat else l.take (l.length - (-n).toNat)

/-- Models `DataFrame.tail(n)`: the last `n` rows for `n ≥ 0`, and all
rows but the first `|n|` for negative `n`. -/
def pdTail (n : Int) (l : List GRow) : List GRow :=
  if 0 ≤ n then l.drop (l.length - n.toNat) else l.drop (-n).toNat

/-- Models `pandas.Series.unique`, documented to return the distinct
values in order of first appearance: the scan keeps a value unless it was
already seen. -/
def pdUniqueAux [DecidableEq α] (seen : List α) : List α → List α
  | [] => []
  | a :: l => if a ∈ seen then pdUniqueAux seen l else a :: pdUniqueAux (a :: seen) l

/-- Models `pandas.Series.unique`: the scan with nothing seen yet. -/
def pdUnique [DecidableEq α] (l : List α) : List α := pdUniqueAux [] l

/-- The sort key of `data.sort_values(by=[group_column, session_id])`:
user identifier ascending, session identifier breaking ties. -/
def rowLe (a b : GRow) : Prop :=
  a.user_id < b.user_id ∨ (a.user_id = b.user_id ∧ a.session_id ≤ b.session_id)

instance : DecidableRel rowLe := fun a b => by unfold rowLe; infer_instance

instance : IsTotal GRow rowLe := ⟨fun a b => by unfold rowLe; omega⟩

instance : IsTrans GRow rowLe := ⟨fun a b c => by unfold rowLe; omega⟩

/-- Models `data.sort_values(by=[group_column, session_id])`.  With more
than one sort column pandas sorts with `numpy.lexsort`, which is stable,
so any stable sort by `rowLe` is a faithful model; Mathlib insertion sort
is used. -/
def sortRows (l : List GRow) : List GRow := l.insertionSort rowLe

/-- The session-window selection of the `group_by` loop body: every row of
the group when `sessions` is the literal string `"All"`; otherwise
`int(sessions)` is attempted (a failure raises the first `ValueError` of
the source), and `count_from.lower()` chooses `head` or `tail` (any other
value raises the second `ValueError`). -/
def selectSubset (sessions count_from : PyStr) (group_df : List GRow) :
    Except PyStr (List GRow) :=
  if sessions = "All".data then .ok group_df
  else
    match pyInt sessions with
    | none => .error ("The sessions parameter must be an integer or 'All'.".data)
    | some session_count =>
      if pyLower count_from = "first".data then .ok (pdHead session_count group_df)
      else if pyLower count_from = "last".data then .ok (pdTail session_count group_df)
      else .error ("count_from must be either 'first' or 'last'.".data)

/-- One iteration of the `group_by` loop: select the window, then build the
aggregated record by hyphen-joining the journeys, the stringified session
identifiers, and the distinct subscription values in order of first
appearance. -/
def aggGroup (sessions count_from : PyStr) (group_name : Int) (group_df : List GRow) :
    Except PyStr AggRow :=
  (selectSubset sessions count_from group_df).map fun subset =>
    { user_id := group_name
      session_id := joinChar '-' (subset.map fun r => intStr r.session_id)
      subscription_type := joinChar '-' (pdUnique (subset.map fun r => r.subscription_type))
      user_journey := joinChar '-' (subset.map fun r => r.user_journey) }

instance [DecidableEq ε] [DecidableEq α] : DecidableEq (Except ε α) := fun x y =>
  match x, y with
  | .error a, .error b =>
    if h : a = b then .isTrue (by rw [h]) else .isFalse fun hh => h (Except.error.inj hh)
  | .error _, .ok _ => .isFalse fun hh => Except.noConfusion hh
  | .ok _, .error _ => .isFalse fun hh => Except.noConfusion hh
  | .ok a, .ok b =>
    if h : a = b then .isTrue (by rw [h]) else .isFalse fun hh => h (Except.ok.inj hh)

/-- The `for group_name, group_df in grouped` loop: each iteration either
raises (the error escapes at once, as in Python) or appends one record. -/
def mapExcept (f : α → Except ε β) : List α → Except ε (List β)
  | [] => .ok []
  | a :: l =>
    match f a with
    | .error e => .error e
    | .ok b =>
      match mapExcept f l with
      | .error e => .error e
      | .ok bs => .ok (b :: bs)

/-- The transform `group_by(data, ...)`: sort by (user, session), iterate the groups in
order of first appearance after sorting (`groupby(group_column,
sort=False)` groups all rows of equal key, here contiguous runs of the
sorted table), and fold each selected window into one record. -/
def group_by (data : List GRow) (sessions : PyStr) (count_from : PyStr) :
    Except PyStr (List AggRow) :=
  let sorted := sortRows data
  mapExcept
    (fun k => aggGroup sessions count_from k (sorted.filter fun r => r.user_id = k))
    (pdUnique (sorted.map fun r => r.user_id))

/-! ### Lemmas on splitting, joining and collapsing -/

theorem splitChar_cons_of_eq (c x : Char) (xs : PyStr) (a : PyStr) (as : List PyStr)
    (hs : splitChar c xs = a :: as) :
    splitChar c (x :: xs) = if x = c then [] :: a :: as else (x :: a) :: as := by
  simp only [splitChar, hs]

theorem splitChar_ne_nil (c : Char) (s : PyStr) : splitChar c s ≠ [] := by
  induction s with
  | nil => simp [splitChar]
  | cons x xs ih =>
    cases hs : splitChar c xs with
    | nil => exact absurd hs ih
    | cons a as =>
      rw [splitChar_cons_of_eq c x xs a as hs]
      by_cases hx : x = c <;> simp [hx]

theorem not_mem_of_mem_splitChar (c : Char) (s : PyStr) :
    ∀ t ∈ splitChar c s, c ∉ t := by
  induction s with
  | nil =>
    intro t ht
    simp only [splitChar, List.mem_singleton] at ht
    subst ht; simp
  | cons x xs ih =>
    intro t ht
    cases hs : splitChar c xs with
    | nil => exact absurd hs (splitChar_ne_nil c xs)
    | cons a as =>
      rw [splitChar_cons_of_eq c x xs a as hs] at ht
      have hmem : ∀ u ∈ a :: as, c ∉ u := by rw [← hs]; exact ih
      by_cases hx : x = c
      · rw [if_pos hx] at ht
        rcases List.mem_cons.mp ht with h1 | h1
        · subst h1; simp
        · exact hmem t h1
      · rw [if_neg hx] at ht
        rcases List.mem_cons.mp ht with h1 | h1
        · subst h1
          intro hc
          rcases List.mem_cons.mp hc with h2 | h2
          · exact hx h2.symm
          · exact hmem a (List.mem_cons_self a as) h2
        · exact hmem t (List.mem_cons_of_mem a h1)

theorem splitChar_of_not_mem (c : Char) (s : PyStr) (h : c ∉ s) :
    splitChar c s = [s] := by
  induction s with
  | nil => rfl
  | cons x xs ih =>
    have hx : ¬ x = c := by rintro rfl; exact h (List.mem_cons_self x xs)
    have hxs : c ∉ xs := fun hm => h (List.mem_cons_of_mem x hm)
    rw [splitChar_cons_of_eq c x xs xs [] (ih hxs), if_neg hx]

theorem splitChar_append_cons (c : Char) (t rest : PyStr) (h : c ∉ t) :
    splitChar c (t ++ c :: rest) = t :: splitChar c rest := by
  induction t with
  | nil =>
    cases hs : splitChar c rest with
    | nil => exact absurd hs (splitChar_ne_nil c rest)
    | cons a as =>
      rw [List.nil_append, splitChar_cons_of_eq c c rest a as hs, if_pos rfl]
  | cons x xs ih =>
    have hx : ¬ x = c := by rintro rfl; exact h (List.mem_cons_self x xs)
    have hxs : c ∉ xs := fun hm => h (List.mem_cons_of_mem x hm)
    rw [List.cons_append, splitChar_cons_of_eq c x _ xs (splitChar c rest) (ih hxs),
      if_neg hx]

theorem splitChar_joinChar (c : Char) :
    ∀ ts, ts ≠ [] → (∀ t ∈ ts, c ∉ t) → splitChar c (joinChar c ts) = ts
  | [], h, _ => absurd rfl h
  | [t], _, hall => by
    simp only [joinChar]
    exact splitChar_of_not_mem c t (hall t (List.mem_singleton_self t))
  | t :: t2 :: ts, _, hall => by
    have hj : joinChar c (t :: t2 :: ts) = t ++ c :: joinChar c (t2 :: ts) := rfl
    rw [hj, splitChar_append_cons c t _ (hall t (List.mem_cons_self t _)),
      splitChar_joinChar c (t2 :: ts) (by simp)
        (fun x hx => hall x (List.mem_cons_of_mem t hx))]

theorem mem_collapseGo : ∀ (last : PyStr) (l : List PyStr) (t : PyStr),
    t ∈ collapseGo last l → t ∈ l
  | _, [], t, h => by simp [collapseGo] at h
  | last, p :: ps, t, h => by
    simp only [collapseGo] at h
    by_cases hp : p = last
    · rw [if_pos hp] at h
      exact List.mem_cons_of_mem p (mem_collapseGo last ps t h)
    · rw [if_neg hp] at h
      rcases List.mem_cons.mp h with h1 | h1
      · subst h1; exact List.mem_cons_self t ps
      · exact List.mem_cons_of_mem p (mem_collapseGo p ps t h1)

theorem chain_collapseGo : ∀ (last : PyStr) (l : List PyStr),
    List.Chain' (· ≠ ·) (last :: collapseGo last l)
  | _, [] => List.chain'_singleton _
  | last, p :: ps => by
    simp only [collapseGo]
    by_cases hp : p = last
    · rw [if_pos hp]; exact chain_collapseGo last ps
    · rw [if_neg hp]
      rw [List.chain'_cons]
      exact ⟨fun h => hp h.symm, chain_collapseGo p ps⟩

theorem collapseGo_of_chain : ∀ (x : PyStr) (l : List PyStr),
    List.Chain' (· ≠ ·) (x :: l) → collapseGo x l = l
  | _, [], _ => rfl
  | x, p :: ps, h => by
    rw [List.chain'_cons] at h
    simp only [collapseGo, if_neg (Ne.symm h.1)]
    rw [collapseGo_of_chain p ps h.2]

theorem remove_duplicates_str (s p : PyStr) (rest : List PyStr)
    (hs : splitChar '-' s = p :: rest) :
    remove_duplicates (.str s) = .str (joinChar '-' (p :: collapseGo p rest)) := by
  simp only [remove_duplicates, hs]

theorem remove_duplicates_idem (v : Value) :
    remove_duplicates (remove_duplicates v) = remove_duplicates v := by
  cases v with
  | nonstr t => rfl
  | str s =>
    cases hs : splitChar '-' s with
    | nil => exact absurd hs (splitChar_ne_nil '-' s)
    | cons p rest =>
      rw [remove_duplicates_str s p rest hs]
      have hnotmem : ∀ t ∈ p :: collapseGo p rest, '-' ∉ t := by
        intro t ht
        rcases List.mem_cons.mp ht with h1 | h1
        · rw [h1]
          exact not_mem_of_mem_splitChar '-' s p (hs ▸ List.mem_cons_self p rest)
        · exact not_mem_of_mem_splitChar '-' s t
            (hs ▸ List.mem_cons_of_mem p (mem_collapseGo p rest t h1))
      have hsplit : splitChar '-' (joinChar '-' (p :: collapseGo p rest)) =
          p :: collapseGo p rest :=
        splitChar_joinChar '-' _ (by simp) hnotmem
      rw [remove_duplicates_str _ p (collapseGo p rest) hsplit,
        collapseGo_of_chain p _ (chain_collapseGo p rest)]

/-! ### Lemmas on rows and columns -/

theorem cell_setCell_same (r : Row) (c : Col) (v : Value) :
    (r.setCell c v).cell c = v := by cases c <;> rfl

theorem cell_setCell_ne (r : Row) (c c2 : Col) (v : Value) (h : c2 ≠ c) :
    (r.setCell c v).cell c2 = r.cell c2 := by
  cases c <;> cases c2 <;> first | rfl | exact absurd rfl h

theorem setCell_setCell (r : Row) (c : Col) (v w : Value) :
    (r.setCell c v).setCell c w = r.setCell c w := by cases c <;> rfl

/-! ### Lemmas on `pdUnique` -/

/-- The spec-side description of unique-value folding (§3, §4.2 step 4,
§9): scan left to right and append a value only on its first occurrence. -/
def specUnique [DecidableEq α] (l : List α) : List α :=
  l.foldl (fun acc x => if x ∈ acc then acc else acc ++ [x]) []

theorem pdUniqueAux_congr [DecidableEq α] (s₁ s₂ l : List α)
    (h : ∀ x, x ∈ s₁ ↔ x ∈ s₂) : pdUniqueAux s₁ l = pdUniqueAux s₂ l := by
  induction l generalizing s₁ s₂ with
  | nil => rfl
  | cons a l ih =>
    simp only [pdUniqueAux]
    by_cases ha : a ∈ s₁
    · rw [if_pos ha, if_pos ((h a).mp ha)]
      exact ih _ _ h
    · rw [if_neg ha, if_neg (fun hb => ha ((h a).mpr hb))]
      rw [ih (a :: s₁) (a :: s₂) (by intro x; simp [h x])]

theorem mem_pdUniqueAux [DecidableEq α] (seen l : List α) (x : α) :
    x ∈ pdUniqueAux seen l ↔ x ∈ l ∧ x ∉ seen := by
  induction l generalizing seen with
  | nil => simp [pdUniqueAux]
  | cons a l ih =>
    simp only [pdUniqueAux]
    by_cases ha : a ∈ seen
    · rw [if_pos ha, ih]
      constructor
      · rintro ⟨h1, h2⟩
        exact ⟨List.mem_cons_of_mem a h1, h2⟩
      · rintro ⟨h1, h2⟩
        rcases List.mem_cons.mp h1 with rfl | h1
        · exact absurd ha h2
        · exact ⟨h1, h2⟩
    · rw [if_neg ha]
      simp only [List.mem_cons, ih (a :: seen)]
      constructor
      · rintro (rfl | ⟨h1, h2⟩)
        · exact ⟨Or.inl rfl, ha⟩
        · exact ⟨Or.inr h1, fun hx => h2 (Or.inr hx)⟩
      · rintro ⟨h0, h2⟩
        rcases h0 with rfl | h1
        · exact Or.inl rfl
        · by_cases hxa : x = a
          · exact Or.inl hxa
          · exact Or.inr ⟨h1, fun hx => hx.elim hxa h2⟩

theorem nodup_pdUniqueAux [DecidableEq α] (seen l : List α) :
    (pdUniqueAux seen l).Nodup := by
  induction l generalizing seen with
  | nil => simp [pdUniqueAux]
  | cons a l ih =>
    simp only [pdUniqueAux]
    by_cases ha : a ∈ seen
    · rw [if_pos ha]
      exact ih seen
    · rw [if_neg ha, List.nodup_cons]
      refine ⟨fun hmem => ?_, ih (a :: seen)⟩
      exact ((mem_pdUniqueAux (a :: seen) l a).mp hmem).2 (List.mem_cons_self a seen)

theorem mem_pdUnique [DecidableEq α] (l : List α) (x : α) :
    x ∈ pdUnique l ↔ x ∈ l := by
  rw [pdUnique, mem_pdUniqueAux]
  simp

theorem nodup_pdUnique [DecidableEq α] (l : List α) : (pdUnique l).Nodup :=
  nodup_pdUniqueAux [] l

theorem foldl_keepFirst [DecidableEq α] (l acc : List α) :
    l.foldl (fun acc x => if x ∈ acc then acc else acc ++ [x]) acc =
      acc ++ pdUniqueAux acc l := by
  induction l generalizing acc with
  | nil => simp [pdUniqueAux]
  | cons a l ih =>
    simp only [List.foldl_cons, pdUniqueAux]
    by_cases ha : a ∈ acc
    · rw [if_pos ha, if_pos ha, ih]
    · rw [if_neg ha, if_neg ha, ih (acc ++ [a]),
        pdUniqueAux_congr (acc ++ [a]) (a :: acc) l (by intro x; simp; tauto)]
      simp

theorem pdUnique_eq_specUnique [DecidableEq α] (l : List α) :
    pdUnique l = specUnique l := by
  rw [specUnique, foldl_keepFirst, List.nil_append, pdUnique]

theorem pdUnique_cons [DecidableEq α] (a : α) (l : List α) :
    pdUnique (a :: l) = a :: pdUniqueAux [a] l := by
  simp [pdUnique, pdUniqueAux]

/-! ### Lemmas on `mapExcept` -/

theorem mapExcept_ok_forall₂ (f : α → Except ε β) :
    ∀ (l : List α) (out : List β), mapExcept f l = .ok out →
      List.Forall₂ (fun a b => f a = .ok b) l out
  | [], out, h => by
    cases Except.ok.inj h
    exact List.Forall₂.nil
  | a :: l, out, h => by
    simp only [mapExcept] at h
    cases hfa : f a with
    | error e => simp only [hfa] at h; exact Except.noConfusion h
    | ok b =>
      simp only [hfa] at h
      cases hml : mapExcept f l with
      | error e => simp only [hml] at h; exact Except.noConfusion h
      | ok bs =>
        simp only [hml] at h
        cases Except.ok.inj h
        exact List.Forall₂.cons hfa (mapExcept_ok_forall₂ f l bs hml)

theorem mapExcept_ok_of_forall (f : α → Except ε β) :
    ∀ l : List α, (∀ a ∈ l, ∃ b, f a = .ok b) → ∃ out, mapExcept f l = .ok out
  | [], _ => ⟨[], rfl⟩
  | a :: l, h => by
    obtain ⟨b, hb⟩ := h a (List.mem_cons_self a l)
    obtain ⟨out, hout⟩ :=
      mapExcept_ok_of_forall f l fun x hx => h x (List.mem_cons_of_mem a hx)
    exact ⟨b :: out, by simp only [mapExcept, hb, hout]⟩

theorem mapExcept_error_cons (f : α → Except ε β) (a : α) (l : List α) (e : ε)
    (h : f a = .error e) : mapExcept f (a :: l) = .error e := by
  simp only [mapExcept, h]

/-! ### Lemmas on the sort of `group_by` -/

theorem sortRows_perm (l : List GRow) : List.Perm (sortRows l) l :=
  List.perm_insertionSort rowLe l

theorem sortRows_sorted (l : List GRow) : List.Sorted rowLe (sortRows l) :=
  List.sorted_insertionSort rowLe l

theorem sortRows_filter_key (l : List GRow) (k : Int × Int) :
    (sortRows l).filter (fun r => (r.user_id, r.session_id) = k) =
      l.filter (fun r => (r.user_id, r.session_id) = k) := by
  have hsub : List.Sublist (l.filter (fun r => (r.user_id, r.session_id) = k)) l :=
    List.filter_sublist l
  have hpair : (l.filter (fun r => (r.user_id, r.session_id) = k)).Pairwise rowLe := by
    apply List.pairwise_of_forall_mem_list
    intro a ha b hb
    have ha2 := (List.mem_filter.mp ha).2
    have hb2 := (List.mem_filter.mp hb).2
    simp only [decide_eq_true_eq, Prod.ext_iff] at ha2 hb2
    unfold rowLe
    right
    exact ⟨ha2.1.trans hb2.1.symm, le_of_eq (ha2.2.trans hb2.2.symm)⟩
  have h1 : List.Sublist (l.filter (fun r => (r.user_id, r.session_id) = k)) (sortRows l) :=
    List.sublist_insertionSort hpair hsub
  have h2 : List.Sublist (l.filter (fun r => (r.user_id, r.session_id) = k))
      ((sortRows l).filter (fun r => (r.user_id, r.session_id) = k)) := by
    have h3 := h1.filter (fun r => decide ((r.user_id, r.session_id) = k))
    rwa [List.filter_eq_self.mpr (fun a ha => (List.mem_filter.mp ha).2)] at h3
  have hlen : ((sortRows l).filter (fun r => (r.user_id, r.session_id) = k)).length =
      (l.filter (fun r => (r.user_id, r.session_id) = k)).length := by
    rw [← List.countP_eq_length_filter, ← List.countP_eq_length_filter]
    exact (sortRows_perm l).countP_eq _
  exact (h2.eq_of_length hlen.symm).symm

/-! ### Lemmas on `selectSubset`, `aggGroup` and `group_by` -/

/-- The invalid-parameter condition of §4.2 and §7: `sessions` is neither
the "All" marker nor integer-convertible, or it is a bounded count and
`count_from` (lowercased) is neither "first" nor "last". -/
def invalidParams (sessions count_from : PyStr) : Prop :=
  sessions ≠ "All".data ∧
    (pyInt sessions = none ∨
      (pyLower count_from ≠ "first".data ∧ pyLower count_from ≠ "last".data))

theorem selectSubset_ok_iff (sessions count_from : PyStr) (g : List GRow) :
    (∃ subset, selectSubset sessions count_from g = .ok subset) ↔
      ¬ invalidParams sessions count_from := by
  unfold selectSubset invalidParams
  by_cases hall : sessions = "All".data
  · simp [hall]
  · rw [if_neg hall]
    cases hp : pyInt sessions with
    | none => simp [hall]
    | some n =>
      by_cases hf : pyLower count_from = "first".data
      · simp [hall, hf]
      · by_cases hl : pyLower count_from = "last".data
        · simp [hall, hf, hl]
        · simp [hall, hf, hl]

theorem selectSubset_error_of_invalid (sessions count_from : PyStr)
    (h : invalidParams sessions count_from) :
    ∃ e, ∀ g : List GRow, selectSubset sessions count_from g = .error e := by
  obtain ⟨hall, h2⟩ := h
  unfold selectSubset
  rcases h2 with hp | ⟨hf, hl⟩
  · refine ⟨"The sessions parameter must be an integer or 'All'.".data, fun g => ?_⟩
    rw [if_neg hall]
    simp only [hp]
  · cases hp : pyInt sessions with
    | none =>
      refine ⟨"The sessions parameter must be an integer or 'All'.".data, fun g => ?_⟩
      rw [if_neg hall]
      try simp only [hp]
    | some n =>
      refine ⟨"count_from must be either 'first' or 'last'.".data, fun g => ?_⟩
      rw [if_neg hall]
      simp [hf, hl]

theorem aggGroup_ok_of_select (sessions count_from : PyStr) (k : Int)
    (g subset : List GRow) (hs : selectSubset sessions count_from g = .ok subset) :
    aggGroup sessions count_from k g = .ok
      { user_id := k
        session_id := joinChar '-' (subset.map fun r => intStr r.session_id)
        subscription_type :=
          joinChar '-' (pdUnique (subset.map fun r => r.subscription_type))
        user_journey := joinChar '-' (subset.map fun r => r.user_journey) } := by
  unfold aggGroup
  rw [hs]
  rfl

theorem aggGroup_error_of_select (sessions count_from : PyStr) (k : Int)
    (g : List GRow) (e : PyStr) (hs : selectSubset sessions count_from g = .error e) :
    aggGroup sessions count_from k g = .error e := by
  unfold aggGroup
  rw [hs]
  rfl

theorem aggGroup_user_id (sessions count_from : PyStr) (k : Int) (g : List GRow)
    (row : AggRow) (h : aggGroup sessions count_from k g = .ok row) :
    row.user_id = k := by
  unfold aggGroup at h
  cases hs : selectSubset sessions count_from g with
  | error e =>
    rw [hs] at h
    exact Except.noConfusion h
  | ok subset =>
    rw [hs] at h
    cases Except.ok.inj h
    rfl

theorem group_by_eq (data : List GRow) (sessions count_from : PyStr) :
    group_by data sessions count_from =
      mapExcept
        (fun k => aggGroup sessions count_from k
          ((sortRows data).filter fun r => r.user_id = k))
        (pdUnique ((sortRows data).map fun r => r.user_id)) := rfl

theorem forall₂_map_right_eq {R : α → β → Prop} {g : β → α}
    (hg : ∀ a b, R a b → g b = a) :
    ∀ {l : List α} {out : List β}, List.Forall₂ R l out → out.map g = l := by
  intro l out h
  induction h with
  | nil => rfl
  | cons h1 _ ih => simp [hg _ _ h1, ih]

/-! ### The spec-side per-value deduplication -/

/-- The §4.1 per-value algorithm as the spec words it: split on the
hyphen; an empty token sequence returns the value unchanged; otherwise
scan the tokens left to right keeping each one only if it differs from
the last kept token (the first is always kept, the accumulator starting
empty), and re-join with the hyphen. -/
def specDedupValue (s : PyStr) : PyStr :=
  match splitChar '-' s with
  | [] => s
  | toks =>
    joinChar '-'
      (toks.foldl (fun acc t => if acc.getLast? = some t then acc else acc ++ [t]) [])

theorem foldl_keepChanged (l : List PyStr) (acc : List PyStr) (x : PyStr) :
    l.foldl (fun acc t => if acc.getLast? = some t then acc else acc ++ [t])
        (acc ++ [x]) = acc ++ x :: collapseGo x l := by
  induction l generalizing acc x with
  | nil => simp [collapseGo]
  | cons t ts ih =>
    simp only [List.foldl_cons, List.getLast?_concat, collapseGo]
    by_cases ht : t = x
    · rw [if_pos (by rw [ht]), if_pos ht, ih]
    · rw [if_neg (fun h => ht (Option.some.inj h).symm), if_neg ht, ih (acc ++ [x]) t]
      simp [List.append_assoc]

theorem specDedupValue_eq (s : PyStr) :
    remove_duplicates (.str s) = .str (specDedupValue s) := by
  cases hs : splitChar '-' s with
  | nil => exact absurd hs (splitChar_ne_nil '-' s)
  | cons p rest =>
    rw [remove_duplicates_str s p rest hs]
    simp only [specDedupValue, hs, List.foldl_cons]
    rw [if_neg (by simp), foldl_keepChanged rest [] p, List.nil_append]

/-! ### Sample data for the concrete instantiations -/

/-- A sample Grouper row: user 1, session 2. -/
def sampleRow : GRow := ⟨1, 2, "basic".data, "A-B".data⟩

/-- A sample Grouper row: user 1, session 1, another subscription. -/
def sampleRow2 : GRow := ⟨1, 1, "pro".data, "B-C".data⟩

/-- A sample raw row whose journey cell is not a string. -/
def sampleRawRow : Row := ⟨.str "7".data, .str "1".data, .str "basic".data, .nonstr 0⟩

/-! ### The claims -/

/-- C1, counterexample: the parameter validation of `group_by` sits inside
the per-group loop, so on the empty input table no group is visited and an
invalid `sessions` value ("bogus" is neither the "All" marker nor
integer-convertible) raises nothing: an empty output table is produced.
This contradicts the claim, which quantifies over every input table. -/
theorem grouper_empty_table_invalid_params_ok :
    group_by [] "bogus".data "last".data = .ok [] ∧
      "bogus".data ≠ "All".data ∧ pyInt "bogus".data = none := by
  exact ⟨by decide, by decide, by decide⟩

/-- C1, amended: for every NON-EMPTY input table, `group_by` signals the
`InvalidParameter` condition (a raised `ValueError`, which propagates to
the caller so that no output table is produced) exactly when `sessions`
is neither the "All" marker nor convertible to an integer, or `sessions`
is a bounded count and `count_from` is, case-insensitively, neither
"first" nor "last". -/
theorem grouper_error_iff_invalid_params (data : List GRow)
    (sessions count_from : PyStr) (hne : data ≠ []) :
    (∃ e, group_by data sessions count_from = .error e) ↔
      invalidParams sessions count_from := by
  rw [group_by_eq]
  have hkeys : ∃ k ks, pdUnique ((sortRows data).map fun r => r.user_id) = k :: ks := by
    cases hsd : sortRows data with
    | nil =>
      have hlen := (sortRows_perm data).length_eq
      rw [hsd] at hlen
      cases data with
      | nil => exact absurd rfl hne
      | cons a l => simp at hlen
    | cons r rest =>
      rw [List.map_cons, pdUnique_cons]
      exact ⟨_, _, rfl⟩
  obtain ⟨k0, ks, hk⟩ := hkeys
  rw [hk]
  constructor
  · rintro ⟨e, he⟩
    by_contra hnv
    have hok : ∀ a ∈ k0 :: ks, ∃ b,
        aggGroup sessions count_from a
          ((sortRows data).filter fun r => r.user_id = a) = .ok b := by
      intro a _
      obtain ⟨subset, hs⟩ := (selectSubset_ok_iff sessions count_from _).mpr hnv
      exact ⟨_, aggGroup_ok_of_select _ _ _ _ _ hs⟩
    obtain ⟨out, hout⟩ := mapExcept_ok_of_forall _ _ hok
    rw [hout] at he
    exact Except.noConfusion he
  · intro hv
    obtain ⟨e, hsel⟩ := selectSubset_error_of_invalid _ _ hv
    exact ⟨e, mapExcept_error_cons _ _ _ _ (aggGroup_error_of_select _ _ _ _ _ (hsel _))⟩

/-- C1, witness: the amended statement at a one-row table with
`sessions="bogus"`. -/
theorem grouper_error_iff_invalid_params_witness :
    ([sampleRow] : List GRow) ≠ [] ∧
      ((∃ e, group_by [sampleRow] "bogus".data "last".data = .error e) ↔
        invalidParams "bogus".data "last".data) :=
  ⟨by decide,
    grouper_error_iff_invalid_params [sampleRow] "bogus".data "last".data (by decide)⟩

/-- C2: before grouping the rows are ordered by (grouping key ascending,
session id ascending) — `sortRows` is a permutation of the input, pairwise
ordered by `rowLe` — and the sort is stable: for any fixed pair of key
values, the rows carrying exactly those keys appear in the sorted table in
their original relative input order. -/
theorem grouper_sort_sorted_and_stable (l : List GRow) :
    List.Sorted rowLe (sortRows l) ∧ List.Perm (sortRows l) l ∧
      ∀ k : Int × Int,
        (sortRows l).filter (fun r => (r.user_id, r.session_id) = k) =
          l.filter (fun r => (r.user_id, r.session_id) = k) :=
  ⟨sortRows_sorted l, sortRows_perm l, fun k => sortRows_filter_key l k⟩

/-- C3: on every string value the Deduplicator computes exactly the
split/keep-first/collapse/re-join algorithm of the spec; in particular a
hyphen-free string and the empty string come back unchanged, and
"A-A-B-B-B-C" maps to "A-B-C". -/
theorem dedup_per_value_algorithm :
    (∀ s : PyStr, remove_duplicates (.str s) = .str (specDedupValue s)) ∧
      (∀ s : PyStr, '-' ∉ s → remove_duplicates (.str s) = .str s) ∧
      remove_duplicates (.str "".data) = .str "".data ∧
      remove_duplicates (.str "A-A-B-B-B-C".data) = .str "A-B-C".data := by
  refine ⟨specDedupValue_eq, fun s hs => ?_, by decide, by decide⟩
  rw [remove_duplicates_str s s [] (splitChar_of_not_mem '-' s hs)]
  rfl

/-- C3, witness: the hyphen-free case at the one-token string "X". -/
theorem dedup_per_value_algorithm_witness :
    remove_duplicates (.str "X".data) = .str "X".data :=
  dedup_per_value_algorithm.2.1 "X".data (by decide)

/-- C4: the Deduplicator is idempotent on every table and target column. -/
theorem dedup_idempotent (df : List Row) (target : Col) :
    remove_page_duplicates (remove_page_duplicates df target) target =
      remove_page_duplicates df target := by
  unfold remove_page_duplicates
  rw [List.map_map]
  apply List.map_congr_left
  intro r _
  show (r.setCell target (remove_duplicates (r.cell target))).setCell target _ = _
  rw [cell_setCell_same, remove_duplicates_idem, setCell_setCell]

/-- C5: for a bounded `sessions` count parsing to `N ≥ 0` and a recognized
`count_from`, the selected window has exactly `min N (group size)` rows,
and when `N` is at least the group size the whole group is selected with
no error. -/
theorem grouper_window_bound (sessions count_from : PyStr) (g : List GRow)
    (N : Int) (hp : pyInt sessions = some N) (hN : 0 ≤ N)
    (hc : pyLower count_from = "first".data ∨ pyLower count_from = "last".data) :
    ∃ subset, selectSubset sessions count_from g = .ok subset ∧
      subset.length = min N.toNat g.length ∧
      (g.length ≤ N.toNat → subset = g) := by
  have hall : sessions ≠ "All".data := by
    rintro rfl
    rw [show pyInt "All".data = none from by decide] at hp
    exact Option.noConfusion hp
  unfold selectSubset
  rw [if_neg hall]
  simp only [hp]
  rcases hc with hf | hl
  · rw [if_pos hf]
    refine ⟨pdHead N g, rfl, ?_, fun hle => ?_⟩
    · unfold pdHead
      rw [if_pos hN, List.length_take]
    · unfold pdHead
      rw [if_pos hN]
      exact List.take_of_length_le hle
  · rw [if_neg (by rw [hl]; decide), if_pos hl]
    refine ⟨pdTail N g, rfl, ?_, fun hle => ?_⟩
    · unfold pdTail
      rw [if_pos hN, List.length_drop]
      omega
    · unfold pdTail
      rw [if_pos hN]
      have hz : g.length - N.toNat = 0 := by omega
      rw [hz, List.drop_zero]

/-- C5, witness: `sessions="5"`, `count_from="last"` on a two-row group. -/
theorem grouper_window_bound_witness :
    ∃ subset, selectSubset "5".data "last".data [sampleRow, sampleRow2] = .ok subset ∧
      subset.length = min (Int.toNat 5) [sampleRow, sampleRow2].length ∧
      ([sampleRow, sampleRow2].length ≤ Int.toNat 5 → subset = [sampleRow, sampleRow2]) :=
  grouper_window_bound "5".data "last".data [sampleRow, sampleRow2] 5 (by decide)
    (by decide) (Or.inr (by decide))

/-- C6: whenever `group_by` succeeds, its output carries one aggregated
row per distinct grouping-key value, in order of first appearance in the
sorted table, and the set of distinct key values in the output equals the
set of distinct key values in the input. -/
theorem grouper_grouping_completeness (data : List GRow) (sessions count_from : PyStr)
    (out : List AggRow) (h : group_by data sessions count_from = .ok out) :
    out.map (fun a => a.user_id) =
        pdUnique ((sortRows data).map fun r => r.user_id) ∧
      (∀ k, (k ∈ out.map fun a => a.user_id) ↔ k ∈ data.map fun r => r.user_id) ∧
      (out.map fun a => a.user_id).Nodup := by
  rw [group_by_eq] at h
  have hf2 := mapExcept_ok_forall₂ _ _ _ h
  have hmap : out.map (fun a => a.user_id) =
      pdUnique ((sortRows data).map fun r => r.user_id) :=
    forall₂_map_right_eq (fun k row hk => aggGroup_user_id _ _ _ _ _ hk) hf2
  refine ⟨hmap, fun k => ?_, ?_⟩
  · rw [hmap, mem_pdUnique]
    exact ((sortRows_perm data).map _).mem_iff
  · rw [hmap]
    exact nodup_pdUnique _

/-- C6, witness: the one-row table aggregates to one row for its key. -/
theorem grouper_grouping_completeness_witness :
    ([⟨1, "2".data, "basic".data, "A-B".data⟩] : List AggRow).map (fun a => a.user_id) =
        pdUnique ((sortRows [sampleRow]).map fun r => r.user_id) ∧
      (∀ k, (k ∈ ([⟨1, "2".data, "basic".data, "A-B".data⟩] : List AggRow).map
            fun a => a.user_id) ↔
          k ∈ [sampleRow].map fun r => r.user_id) ∧
      (([⟨1, "2".data, "basic".data, "A-B".data⟩] : List AggRow).map
        fun a => a.user_id).Nodup :=
  grouper_grouping_completeness [sampleRow] "All".data "last".data
    [⟨1, "2".data, "basic".data, "A-B".data⟩] (by decide)

/-- C7: the aggregated subscription field of a group is the hyphen-joined
fold of the window's subscription values keeping only first occurrences:
it equals the spec-side first-occurrence scan, its value list has no
duplicates, and it holds a value exactly when the window does. -/
theorem grouper_subscription_unique_fold (sessions count_from : PyStr) (k : Int)
    (g subset : List GRow) (row : AggRow)
    (hsel : selectSubset sessions count_from g = .ok subset)
    (hagg : aggGroup sessions count_from k g = .ok row) :
    row.subscription_type =
        joinChar '-' (specUnique (subset.map fun r => r.subscription_type)) ∧
      (pdUnique (subset.map fun r => r.subscription_type)).Nodup ∧
      ∀ s, (s ∈ pdUnique (subset.map fun r => r.subscription_type)) ↔
        s ∈ subset.map fun r => r.subscription_type := by
  rw [aggGroup_ok_of_select sessions count_from k g subset hsel] at hagg
  cases Except.ok.inj hagg
  refine ⟨?_, nodup_pdUnique _, fun s => mem_pdUnique _ s⟩
  show joinChar '-' (pdUnique (subset.map fun r => r.subscription_type)) = _
  rw [pdUnique_eq_specUnique]

/-- C7, witness: a two-session group with distinct subscriptions. -/
theorem grouper_subscription_unique_fold_witness :
    (⟨1, "1-2".data, "pro-basic".data, "B-C-A-B".data⟩ : AggRow).subscription_type =
        joinChar '-'
          (specUnique ([sampleRow2, sampleRow].map fun r => r.subscription_type)) ∧
      (pdUnique ([sampleRow2, sampleRow].map fun r => r.subscription_type)).Nodup ∧
      ∀ s, (s ∈ pdUnique ([sampleRow2, sampleRow].map fun r => r.subscription_type)) ↔
        s ∈ [sampleRow2, sampleRow].map fun r => r.subscription_type :=
  grouper_subscription_unique_fold "All".data "last".data 1 [sampleRow2, sampleRow]
    [sampleRow2, sampleRow] ⟨1, "1-2".data, "pro-basic".data, "B-C-A-B".data⟩
    (by decide) (by decide)

/-- C8: rows whose target cell is not a string pass through the
Deduplicator unchanged, every other column of every row is identical to
the input, and the output table has the same number of rows (the input
table itself is untouched: the transform is a pure map over a copy). -/
theorem dedup_passthrough (df : List Row) (target : Col) (i : Nat)
    (h1 : i < df.length) (h2 : i < (remove_page_duplicates df target).length) :
    (remove_page_duplicates df target).length = df.length ∧
      ((df[i].cell target).isStr = false →
        (remove_page_duplicates df target)[i].cell target = df[i].cell target) ∧
      ∀ c, c ≠ target →
        (remove_page_duplicates df target)[i].cell c = df[i].cell c := by
  have hmap : (remove_page_duplicates df target)[i] =
      df[i].setCell target (remove_duplicates (df[i].cell target)) := by
    simp [remove_page_duplicates]
  refine ⟨by simp [remove_page_duplicates], fun hns => ?_, fun c hc => ?_⟩
  · rw [hmap, cell_setCell_same]
    cases hv : df[i].cell target with
    | str s =>
      rw [hv] at hns
      exact absurd hns (by simp [Value.isStr])
    | nonstr t => rfl
  · rw [hmap]
    exact cell_setCell_ne _ _ _ _ hc

/-- C8, witness: a row with a non-string journey cell is returned as-is. -/
theorem dedup_passthrough_witness :
    (remove_page_duplicates [sampleRawRow] Col.user_journey)[0].cell Col.user_journey =
      [sampleRawRow][0].cell Col.user_journey :=
  (dedup_passthrough [sampleRawRow] Col.user_journey 0 (by decide) (by decide)).2.1
    (by decide)

/-- C9: with the "All" marker the Grouper never inspects `count_from`:
for every table and every `count_from` value the call succeeds, and the
window selected for any group is the whole group. -/
theorem grouper_all_marker_ignores_count_from (data : List GRow) (count_from : PyStr) :
    (∃ out, group_by data "All".data count_from = .ok out) ∧
      ∀ g : List GRow, selectSubset "All".data count_from g = .ok g := by
  have hsel : ∀ g : List GRow, selectSubset "All".data count_from g = .ok g := by
    intro g
    unfold selectSubset
    rw [if_pos rfl]
  refine ⟨?_, hsel⟩
  rw [group_by_eq]
  apply mapExcept_ok_of_forall
  intro k _
  exact ⟨_, aggGroup_ok_of_select _ _ _ _ _ (hsel _)⟩

/-- C10: a `sessions` string convertible to a negative integer `-k`
(`k > 0`) is accepted without error: with `count_from="first"` the window
is all rows but the last `k`, with `count_from="last"` all rows but the
first `k`, empty when `k` is at least the group size. -/
theorem grouper_negative_sessions (sessions count_from : PyStr) (g : List GRow)
    (k : Nat) (hp : pyInt sessions = some (-(k : Int))) (hk : 0 < k) :
    (pyLower count_from = "first".data →
        selectSubset sessions count_from g = .ok (g.take (g.length - k))) ∧
      (pyLower count_from = "last".data →
        selectSubset sessions count_from g = .ok (g.drop k)) ∧
      (g.length ≤ k → g.drop k = []) := by
  have hall : sessions ≠ "All".data := by
    rintro rfl
    rw [show pyInt "All".data = none from by decide] at hp
    exact Option.noConfusion hp
  have htn : (-(-(k : Int))).toNat = k := by omega
  refine ⟨fun hf => ?_, fun hl => ?_, fun hle => List.drop_eq_nil_of_le hle⟩
  · unfold selectSubset
    rw [if_neg hall]
    simp only [hp]
    rw [if_pos hf]
    unfold pdHead
    rw [if_neg (by omega), htn]
  · unfold selectSubset
    rw [if_neg hall]
    simp only [hp]
    rw [if_neg (by rw [hl]; decide), if_pos hl]
    unfold pdTail
    rw [if_neg (by omega), htn]

/-- C10, witness: `sessions="-1"`, `count_from="last"` on a one-row group
drops its only row. -/
theorem grouper_negative_sessions_witness :
    selectSubset "-1".data "last".data [sampleRow] = .ok ([sampleRow].drop 1) :=
  (grouper_negative_sessions "-1".data "last".data [sampleRow] 1 (by decide)
    (by decide)).2.1 (by decide)

end CleanData
